import Mathlib

/-!
Verification development for the binrw binary codec framework.

This file gives a shallow embedding of the repository's write runtime
(`src/binrw/src/binwrite/mod.rs`), of the derive-time attribute cleaning
(`src/binrw_derive/src/binread.rs`), and of the read/write plan semantics
described by the specification for the parts of the project whose code is
not present in the source tree (the schema parser and the plan generators).
Definitions translated from a source file carry a comment naming it;
definitions for absent code carry a doc comment starting with
`Modelled from the spec:`.

Byte streams are `List Nat` with every byte reduced modulo 256 where it is
produced; machine integers are `Nat` with explicit `% 2 ^ w`.
-/

namespace Binrw

/-! ## Endianness and write options (src/binrw/src/binwrite/mod.rs) -/

/-- Byte-order selector. The `Endian` enum itself lives outside the three
source files; its three constructors (big, little, native) are fixed by the
spec's "three fixed-endianness variants (big, little, native)". -/
inductive Endian where
  | Big
  | Little
  | Native
deriving DecidableEq, Repr

/-- Modelled from the spec: the default byte order used by
`WriteOptions::default()`; the upstream crate defaults to native order. -/
def Endian.dfl : Endian := Endian.Native

/-- Options for how data should be written; an immutable context record
holding the current endianness (src/binrw/src/binwrite/mod.rs, `WriteOptions`). -/
structure WriteOptions where
  endian : Endian
deriving DecidableEq, Repr

/-- `WriteOptions::new(endian)` (src/binrw/src/binwrite/mod.rs). -/
def WriteOptions.new (endian : Endian) : WriteOptions :=
  { endian := endian }

/-- `WriteOptions::default()`: the derived `Default` fills each field with its
own default. -/
def WriteOptions.dfl : WriteOptions :=
  { endian := Endian.dfl }

/-- `WriteOptions::with_endian(self, endian)` returns the same `WriteOptions`
but with the endian set; the receiver is consumed by value and a fresh record
is built (src/binrw/src/binwrite/mod.rs). -/
def WriteOptions.with_endian (_self : WriteOptions) (endian : Endian) : WriteOptions :=
  { endian := endian }

/-! ## The writer and the BinWrite contract -/

/-- The seekable byte sink, reduced to what the embedded operations use:
the sequence of bytes written so far. Sequential writes append. -/
structure Writer where
  data : List Nat
deriving DecidableEq, Repr

/-- Runtime write errors (`BinResult` failure); the embedded leaf writers are
infallible but the contract is fallible, as in the source. -/
inductive WriteError where
  | ioError
deriving DecidableEq, Repr

/-- The `BinWrite` trait (src/binrw/src/binwrite/mod.rs): a type `T` with
argument type `Args` is written through `write_options(self, writer, options,
args)`. The Rust `&mut W` writer is modelled by threading the `Writer` state
through the result. -/
structure BinWrite (T : Type) (Args : Type) where
  write_options : T → Writer → WriteOptions → Args → Except WriteError Writer

/-- `BinWrite::write_to` (src/binrw/src/binwrite/mod.rs): write with default
options and default arguments; only available when `Args` has a default,
modelled by the `Inhabited` instance argument. -/
def BinWrite.write_to {T Args : Type} (bw : BinWrite T Args) [Inhabited Args]
    (v : T) (w : Writer) : Except WriteError Writer :=
  bw.write_options v w WriteOptions.dfl default

/-- `BinWrite::write_with_args` (src/binrw/src/binwrite/mod.rs). -/
def BinWrite.write_with_args {T Args : Type} (bw : BinWrite T Args)
    (v : T) (w : Writer) (args : Args) : Except WriteError Writer :=
  bw.write_options v w WriteOptions.dfl args

/-! ## BinWriterExt (src/binrw/src/binwrite/mod.rs) -/

/-- `BinWriterExt::write_type_args`: build `WriteOptions::new(endian)`, call
`T::write_options(value, self, &options, args)?` and return `Ok(())`; the
writer state stands for the unit payload. -/
def write_type_args {T Args : Type} (bw : BinWrite T Args) (w : Writer)
    (value : T) (endian : Endian) (args : Args) : Except WriteError Writer := do
  let options := WriteOptions.new endian
  let w2 ← bw.write_options value w options args
  pure w2

/-- `BinWriterExt::write_type`. -/
def write_type {T Args : Type} (bw : BinWrite T Args) [Inhabited Args]
    (w : Writer) (value : T) (endian : Endian) : Except WriteError Writer :=
  write_type_args bw w value endian default

/-- `BinWriterExt::write_be`. -/
def write_be {T Args : Type} (bw : BinWrite T Args) [Inhabited Args]
    (w : Writer) (value : T) : Except WriteError Writer :=
  write_type bw w value Endian.Big

/-- `BinWriterExt::write_le`. -/
def write_le {T Args : Type} (bw : BinWrite T Args) [Inhabited Args]
    (w : Writer) (value : T) : Except WriteError Writer :=
  write_type bw w value Endian.Little

/-- `BinWriterExt::write_ne`. -/
def write_ne {T Args : Type} (bw : BinWrite T Args) [Inhabited Args]
    (w : Writer) (value : T) : Except WriteError Writer :=
  write_type bw w value Endian.Native

/-- `BinWriterExt::write_be_args`. -/
def write_be_args {T Args : Type} (bw : BinWrite T Args) (w : Writer)
    (value : T) (args : Args) : Except WriteError Writer :=
  write_type_args bw w value Endian.Big args

/-- `BinWriterExt::write_le_args`. -/
def write_le_args {T Args : Type} (bw : BinWrite T Args) (w : Writer)
    (value : T) (args : Args) : Except WriteError Writer :=
  write_type_args bw w value Endian.Little args

/-- `BinWriterExt::write_ne_args`. -/
def write_ne_args {T Args : Type} (bw : BinWrite T Args) (w : Writer)
    (value : T) (args : Args) : Except WriteError Writer :=
  write_type_args bw w value Endian.Native args

/-! ## Leaf codecs for the concrete scenario

The per-primitive `BinWrite` implementations live in `binwrite/impls.rs`,
which is not part of the visible sources; the spec treats leaf codecs as
external collaborators with fixed byte encodings. -/

/-- Modelled from the spec: the `u8` leaf writer appends the single byte of
the value; `u8` has no byte-order dependence. -/
def u8BinWrite : BinWrite Nat Unit :=
  { write_options := fun v w _options _args => Except.ok { data := w.data ++ [v % 256] } }

/-- Modelled from the spec: the two bytes of a `u16` in the given byte order;
native order is taken as little-endian in this development. -/
def u16Bytes (e : Endian) (v : Nat) : List Nat :=
  match e with
  | Endian.Big => [v % 2 ^ 16 / 256, v % 256]
  | Endian.Little => [v % 256, v % 2 ^ 16 / 256]
  | Endian.Native => [v % 256, v % 2 ^ 16 / 256]

/-- Modelled from the spec: the `u16` leaf writer appends the two bytes of the
value in the byte order carried by the options. -/
def u16BinWrite : BinWrite Nat Unit :=
  { write_options := fun v w options _args =>
      Except.ok { data := w.data ++ u16Bytes options.endian v } }

/-- Modelled from the spec: the generated write implementation for
`MyStruct(u8, u16, u8)` from the doc-test of src/binrw/src/binwrite/mod.rs:
each field is written in declaration order with the shared options. -/
def myStructBinWrite : BinWrite (Nat × Nat × Nat) Unit :=
  { write_options := fun v w options args => do
      let w1 ← u8BinWrite.write_options v.1 w options args
      let w2 ← u16BinWrite.write_options v.2.1 w1 options args
      u8BinWrite.write_options v.2.2 w2 options args }

/-- Modelled from the spec: the `u8` leaf reader takes one byte off the
stream. -/
def u8Read (bs : List Nat) : Option (Nat × List Nat) :=
  match bs with
  | [] => none
  | b :: rest => some (b % 256, rest)

/-- Modelled from the spec: the `u16` leaf reader takes two bytes off the
stream and assembles them in the given byte order. -/
def u16Read (e : Endian) (bs : List Nat) : Option (Nat × List Nat) :=
  match bs with
  | b0 :: b1 :: rest =>
    match e with
    | Endian.Big => some ((b0 % 256) * 256 + b1 % 256, rest)
    | Endian.Little => some ((b1 % 256) * 256 + b0 % 256, rest)
    | Endian.Native => some ((b1 % 256) * 256 + b0 % 256, rest)
  | _ => none

/-- Modelled from the spec: the generated read implementation for
`MyStruct(u8, u16, u8)`: fields in declaration order with the shared byte
order. -/
def myStructRead (e : Endian) (bs : List Nat) : Option ((Nat × Nat × Nat) × List Nat) := do
  let (a, bs1) ← u8Read bs
  let (b, bs2) ← u16Read e bs1
  let (c, bs3) ← u8Read bs2
  some ((a, b, c), bs3)

/-- The byte stream produced by the doc-test scenario of
src/binrw/src/binwrite/mod.rs: `write_be(&MyStruct(1, 0xffff, 2))` followed by
`write_type(&0x1234_u16, Endian::Little)` on the same writer. -/
def scenarioWrite : Except WriteError Writer := do
  let w ← write_be myStructBinWrite { data := [] } (1, 0xffff, 2)
  write_type u16BinWrite w 0x1234 Endian.Little

/-! ## Derive-time model (src/binrw_derive/src/binread.rs)

The syntax-tree types (`syn::DeriveInput` and friends) are embedded with the
structure the derive code actually touches: attribute lists, field lists,
variants and the three data shapes. An attribute carries a flag saying whether
the parser's `is_binread_attr` recognises it, a flag saying whether it is a
`temp` directive, and a payload standing for its identity. -/

/-- One `syn::Attribute`, reduced to what the derive code inspects. -/
structure Attr where
  is_binread : Bool
  is_temp : Bool
  payload : Nat
deriving DecidableEq, Repr

/-- `is_binread_attr` (from the parser module, outside the visible sources):
recognises the framework's own attributes. -/
def is_binread_attr (a : Attr) : Bool := a.is_binread

/-- One `syn::Field`: an identity plus its attribute list. -/
structure Field where
  ident : Nat
  attrs : List Attr
deriving DecidableEq, Repr

/-- `syn::Fields`: named, unnamed (tuple), or unit. -/
inductive Fields where
  | named (fs : List Field)
  | unnamed (fs : List Field)
  | unit
deriving DecidableEq, Repr

/-- One enum `syn::Variant`: its own attributes plus its fields. -/
structure Variant where
  attrs : List Attr
  fields : Fields
deriving DecidableEq, Repr

/-- `syn::Data`: struct, enum or union shape; a union's fields are named. -/
inductive Data where
  | dstruct (fields : Fields)
  | denum (variants : List Variant)
  | dunion (fields : List Field)
deriving DecidableEq, Repr

/-- `syn::DeriveInput`: top-level attributes plus the data shape. -/
structure DeriveInput where
  attrs : List Attr
  data : Data
deriving DecidableEq, Repr

/-- The compiled `read::Input` plan, reduced to the classification the derive
code consults: which (variant index, field index) pairs are temporary. -/
structure Input where
  temp_fields : List (Nat × Nat)
deriving DecidableEq, Repr

/-- `Input::is_temp_field(variant_index, field_index)`. -/
def Input.is_temp_field (i : Input) (vi fi : Nat) : Bool :=
  i.temp_fields.contains (vi, fi)

/-- Schema-compile-time failures (spec section 7). -/
inductive SchemaErr where
  | UnsupportedShape
  | ConflictingDirectives
  | UnresolvedReference
deriving DecidableEq, Repr

/-- The output of `generate_binread_impl`: either an implementation
parameterised by the compiled plan, or a compile error. -/
inductive Generated where
  | impl (plan : Input)
  | compileError (e : SchemaErr)
deriving DecidableEq, Repr

/-- Modelled from the spec: `generate_binread_impl` (codegen module, outside
the visible sources) produces an implementation exactly when the parse
succeeded; a schema-compile-time error is fatal and prevents any
implementation from being produced. -/
def generate_binread_impl (pr : Except SchemaErr Input) : Generated :=
  match pr with
  | Except.ok i => Generated.impl i
  | Except.error e => Generated.compileError e

/-- `derive_from_input` (src/binrw_derive/src/binread.rs): run the parser,
then the code generator; the parser itself is a parameter because the parser
module is outside the visible sources. -/
def derive_from_input (from_input : DeriveInput → Except SchemaErr Input)
    (d : DeriveInput) : Except SchemaErr Input × Generated :=
  (from_input d, generate_binread_impl (from_input d))

/-- `clean_struct_attrs` (src/binrw_derive/src/binread.rs): retain only the
attributes `is_binread_attr` rejects. -/
def clean_struct_attrs (attrs : List Attr) : List Attr :=
  attrs.filter (fun a => !is_binread_attr a)

/-- The field-list transformation inside `clean_field_attrs`
(src/binrw_derive/src/binread.rs): drop each field the plan classifies
temporary, and clean the attributes of every kept field. -/
def clean_field_list (bi : Input) (variant_index : Nat) (fs : List Field) : List Field :=
  fs.enum.filterMap (fun p =>
    if bi.is_temp_field variant_index p.1 then none
    else some { ident := p.2.ident, attrs := clean_struct_attrs p.2.attrs })

/-- `clean_field_attrs` (src/binrw_derive/src/binread.rs): a no-op when the
parse failed (`binread_input` is `None`) and on unit field lists. -/
def clean_field_attrs (binread_input : Option Input) (variant_index : Nat)
    (fields : Fields) : Fields :=
  match binread_input with
  | none => fields
  | some bi =>
    match fields with
    | Fields.named fs => Fields.named (clean_field_list bi variant_index fs)
    | Fields.unnamed fs => Fields.unnamed (clean_field_list bi variant_index fs)
    | Fields.unit => Fields.unit

/-- `derive_from_attribute` (src/binrw_derive/src/binread.rs): re-emit the
definition with struct-level attributes cleaned, fields cleaned per shape, and
return it together with the generated implementation. -/
def derive_from_attribute (from_input : DeriveInput → Except SchemaErr Input)
    (d : DeriveInput) : DeriveInput × Generated :=
  let pr := from_input d
  let generated_impl := generate_binread_impl pr
  let binread_input := pr.toOption
  let cleaned_data :=
    match d.data with
    | Data.dstruct fields => Data.dstruct (clean_field_attrs binread_input 0 fields)
    | Data.denum variants =>
      Data.denum (variants.enum.map (fun p =>
        { attrs := clean_struct_attrs p.2.attrs,
          fields := clean_field_attrs binread_input p.1 p.2.fields }))
    | Data.dunion fields =>
      Data.dunion (fields.map (fun f =>
        { ident := f.ident, attrs := clean_struct_attrs f.attrs }))
  ({ attrs := clean_struct_attrs d.attrs, data := cleaned_data }, generated_impl)

/-! ## The schema parser, modelled from the spec -/

/-- Does this field carry a `temp` directive among its framework attributes? -/
def field_is_temp (f : Field) : Bool :=
  f.attrs.any (fun a => a.is_binread && a.is_temp)

/-- The field list a `Fields` value carries. -/
def fields_list (fields : Fields) : List Field :=
  match fields with
  | Fields.named fs => fs
  | Fields.unnamed fs => fs
  | Fields.unit => []

/-- The temporary classification of one variant's field list. -/
def temp_of_list (vi : Nat) (fs : List Field) : List (Nat × Nat) :=
  fs.enum.filterMap (fun p => if field_is_temp p.2 then some (vi, p.1) else none)

/-- Modelled from the spec: `read::Input::from_input` (parser module, outside
the visible sources). A union shape is rejected with `UnsupportedShape` at
schema-compile time; struct and enum shapes compile to a plan recording which
fields are temporary. -/
def from_input (d : DeriveInput) : Except SchemaErr Input :=
  match d.data with
  | Data.dunion _ => Except.error SchemaErr.UnsupportedShape
  | Data.dstruct fields => Except.ok { temp_fields := temp_of_list 0 (fields_list fields) }
  | Data.denum variants =>
    Except.ok
      { temp_fields := (variants.enum.map (fun p => temp_of_list p.1 (fields_list p.2.fields))).flatten }

/-! ## Read/write plan semantics, modelled from the spec (sections 4.2, 4.3)

The plan generators live in the codegen module, outside the visible sources.
A plan is an ordered list of field descriptors; leaf values are `Nat`; a
generated value is the list of its materialized (non-temporary) leaf values in
declaration order. -/

/-- Modelled from the spec: a leaf codec, the external per-primitive
encoder/decoder pair of section 4.4; the decoder consumes a prefix of the
stream and returns the value and the unconsumed tail. -/
structure LeafCodec where
  enc : Endian → Nat → List Nat
  dec : Endian → List Nat → Option (Nat × List Nat)

/-- Modelled from the spec: one field descriptor of an Input plan, carrying
the directives of section 3 that shape the byte sequence: scoped endian
override, pads, the temporary flag with its write-side recompute expression,
the map transform pair (`map_read` applied after leaf decoding, `map_write`
its inverse direction applied before encoding), and the leaf codec. -/
structure RField where
  endian_override : Option Endian
  pad_before : Nat
  pad_after : Nat
  temporary : Bool
  map_read : Nat → Nat
  map_write : Nat → Nat
  recompute : List Nat → Nat
  codec : LeafCodec

/-- The byte order a field resolves to under an ambient order: its scoped
override when present, the ambient order otherwise (spec section 4.2 step 4). -/
def RField.effEndian (f : RField) (e : Endian) : Endian :=
  f.endian_override.getD e

/-- Advance the stream over `n` pad bytes; fails when the stream is shorter. -/
def skipPad : Nat → List Nat → Option (List Nat)
  | 0, bs => some bs
  | _ + 1, [] => none
  | n + 1, _ :: bs => skipPad n bs

/-- Modelled from the spec: the read procedure of section 4.2 over a field
list — per field in declared order: advance over `pad_before`, decode with the
resolved byte order, apply `map_read`, advance over `pad_after`; a temporary
field's value is discarded from the materialized list. Returns the
materialized values and the unconsumed tail. -/
def readFields : List RField → Endian → List Nat → Option (List Nat × List Nat)
  | [], _, bs => some ([], bs)
  | f :: fs, e, bs =>
    (skipPad f.pad_before bs).bind (fun bs1 =>
      (f.codec.dec (f.effEndian e) bs1).bind (fun pr =>
        (skipPad f.pad_after pr.2).bind (fun bs3 =>
          (readFields fs e bs3).map (fun q =>
            (if f.temporary then q.1 else f.map_read pr.1 :: q.1, q.2)))))

/-- The byte chunk one field contributes on the write side: `pad_before`
filler, the encoding of the (inverse-mapped) value, `pad_after` filler. -/
def writeChunk (f : RField) (e : Endian) (x : Nat) : List Nat :=
  List.replicate f.pad_before 0 ++ f.codec.enc (f.effEndian e) (f.map_write x) ++
    List.replicate f.pad_after 0

/-- Modelled from the spec: the write procedure of section 4.3 over a field
list — per field in declared order, emit its chunk; a non-temporary field
consumes the next materialized value, a temporary field's value is re-derived
from the in-memory value `vf` by its recompute expression. Returns the bytes
and the materialized values not yet consumed. -/
def writeFields : List RField → Endian → List Nat → List Nat → Option (List Nat × List Nat)
  | [], _, _, vals => some ([], vals)
  | f :: fs, e, vf, vals =>
    if f.temporary then
      (writeFields fs e vf vals).map (fun p => (writeChunk f e (f.recompute vf) ++ p.1, p.2))
    else
      match vals with
      | [] => none
      | v :: vals2 =>
        (writeFields fs e vf vals2).map (fun p => (writeChunk f e v ++ p.1, p.2))

/-- Write a whole value: every materialized value must be consumed. -/
def writePlan (fs : List RField) (e : Endian) (v : List Nat) : Option (List Nat) :=
  match writeFields fs e v v with
  | some (bs, []) => some bs
  | _ => none

/-- Round-trip correctness of every leaf codec in a plan (the hypothesis of
the round-trip law): decoding an encoding returns the value and the tail. -/
def leafRT (fs : List RField) : Prop :=
  ∀ f ∈ fs, ∀ e v rest, f.codec.dec e (f.codec.enc e v ++ rest) = some (v, rest)

/-- No map transform in the plan is lossy: the read-side map undoes the
write-side map. -/
def mapRT (fs : List RField) : Prop :=
  ∀ f ∈ fs, ∀ x, f.map_read (f.map_write x) = x

/-! ## Assertions and enum trial-matching, modelled from the spec
(sections 4.2 steps 5–7 and the enum dispatch paragraph) -/

/-- Modelled from the spec: a field descriptor for the assertion-checking
reader: a leaf codec plus an ordered list of assertions, each a description
and a predicate on the decoded value. -/
structure AField where
  codec : LeafCodec
  assertions : List (String × (Nat → Bool))

/-- The description of the first failing assertion, if any. -/
def firstFailing : List (String × (Nat → Bool)) → Nat → Option String
  | [], _ => none
  | a :: rest, v => if a.2 v then firstFailing rest v else some a.1

/-- Runtime read failures (spec section 7): a failing assertion carries the
index of the offending field and the description of the failing predicate; a
leaf failure carries the field index. -/
inductive RErr where
  | AssertionFailed (field : Nat) (desc : String)
  | LeafError (field : Nat)
deriving DecidableEq, Repr

/-- Modelled from the spec: the assertion-checking reader over a field list,
starting at field index `idx` under a shared byte order. Returns the ordered
trace of field indices actually processed together with the result: the first
failure aborts the whole read, so no field after it enters the trace. -/
def readA : Nat → List AField → Endian → List Nat →
    List Nat × Except RErr (List Nat × List Nat)
  | _, [], _, bs => ([], Except.ok ([], bs))
  | idx, f :: fs, e, bs =>
    match f.codec.dec e bs with
    | none => ([idx], Except.error (RErr.LeafError idx))
    | some (v, rest) =>
      match firstFailing f.assertions v with
      | some desc => ([idx], Except.error (RErr.AssertionFailed idx desc))
      | none =>
        let r := readA (idx + 1) fs e rest
        (idx :: r.1,
          match r.2 with
          | Except.ok (vals, rem) => Except.ok (v :: vals, rem)
          | Except.error err => Except.error err)

/-- Run one enum variant's whole field sequence against the stream. -/
def runVariant (v : List AField) (e : Endian) (bs : List Nat) :
    Except RErr (List Nat × List Nat) :=
  (readA 0 v e bs).2

/-- Modelled from the spec: trial-matching from variant index `idx`, keeping
the failures seen so far; the first variant whose entire field sequence
parses is accepted, and when every variant fails the aggregated per-variant
errors are reported (`NoVariantMatched`). -/
def tryVariantsFrom : Nat → List (List AField) → Endian → List Nat → List RErr →
    Except (List RErr) (Nat × List Nat × List Nat)
  | _, [], _, _, errs => Except.error errs.reverse
  | idx, v :: vs, e, bs, errs =>
    match runVariant v e bs with
    | Except.ok r => Except.ok (idx, r)
    | Except.error err => tryVariantsFrom (idx + 1) vs e bs (err :: errs)

/-- Modelled from the spec: enum dispatch without discriminants — attempt the
variants strictly in declaration order against the same stream position. -/
def tryVariants (vs : List (List AField)) (e : Endian) (bs : List Nat) :
    Except (List RErr) (Nat × List Nat × List Nat) :=
  tryVariantsFrom 0 vs e bs []

/-! ## Position bookkeeping for restore_position, modelled from the spec
(sections 4.2 steps 2, 3 and 8, and section 5) -/

/-- A seekable stream: the underlying bytes and the current offset. -/
structure PosStream where
  data : List Nat
  pos : Nat
deriving DecidableEq, Repr

/-- Modelled from the spec: the position-relevant directives of one field:
pads, the restore_position flag, and the fixed number of bytes its codec
consumes. -/
structure PField where
  pad_before : Nat
  pad_after : Nat
  restore_position : Bool
  size : Nat

/-- The `size` bytes at offset `pos`, when the stream is long enough. -/
def takeAt (data : List Nat) (pos n : Nat) : Option (List Nat) :=
  if pos + n ≤ data.length then some ((data.drop pos).take n) else none

/-- Modelled from the spec: processing one field on a positional stream, in
the order of section 4.2 — advance over `pad_before` (step 2), record the
offset (step 3), decode the field's bytes (step 5), advance over `pad_after`
and, when `restore_position` is set, seek back to the recorded offset
(step 8); on a failure the recorded offset is restored likewise before the
error is surfaced (section 5, failure-path discipline). -/
def readPField (f : PField) (dec : List Nat → Option Nat) (s : PosStream) :
    Except RErr Nat × PosStream :=
  let s1 : PosStream := { data := s.data, pos := s.pos + f.pad_before }
  let saved := s1.pos
  match takeAt s1.data s1.pos f.size with
  | none =>
    (Except.error (RErr.LeafError 0),
      if f.restore_position then { data := s1.data, pos := saved } else s1)
  | some chunk =>
    match dec chunk with
    | none =>
      (Except.error (RErr.LeafError 0),
        if f.restore_position then { data := s1.data, pos := saved } else s1)
    | some v =>
      let s2 : PosStream := { data := s1.data, pos := s1.pos + f.size + f.pad_after }
      (Except.ok v,
        if f.restore_position then { data := s2.data, pos := saved } else s2)

/-! ## Concrete instances used to exercise the development -/

/-- The bare-derive union of tests/ui/unsupported_type_union.rs:
`#[derive(BinRead)] union Foo { a: i32 }`. -/
def unionFoo : DeriveInput :=
  { attrs := [], data := Data.dunion [{ ident := 0, attrs := [] }] }

/-- The attribute-form union of tests/ui/unsupported_type_union.rs in a
decorated variant: a union carrying one framework attribute and one foreign
attribute on its field. -/
def unionBar : DeriveInput :=
  { attrs := [{ is_binread := true, is_temp := false, payload := 0 }],
    data := Data.dunion
      [{ ident := 1,
         attrs := [{ is_binread := true, is_temp := false, payload := 2 },
                   { is_binread := false, is_temp := false, payload := 3 }] }] }

/-- An ideal one-byte-per-value leaf codec: the identity encoding; it is
round-trip-correct on every value. -/
def idCodec : LeafCodec :=
  { enc := fun _ v => [v],
    dec := fun _ bs =>
      match bs with
      | [] => none
      | b :: rest => some (b, rest) }

/-- A plain materialized field over the ideal codec. -/
def plainField : RField :=
  { endian_override := none, pad_before := 0, pad_after := 0, temporary := false,
    map_read := fun x => x, map_write := fun x => x, recompute := fun _ => 0,
    codec := idCodec }

/-- A padded, endian-overridden, mapped materialized field over the ideal
codec: the write side subtracts nothing and the read side undoes it. -/
def paddedField : RField :=
  { endian_override := some Endian.Big, pad_before := 1, pad_after := 0,
    temporary := false, map_read := fun x => x, map_write := fun x => x,
    recompute := fun _ => 0, codec := idCodec }

/-- A temporary field whose written value is re-derived as the length of the
materialized value list. -/
def tempField : RField :=
  { endian_override := none, pad_before := 0, pad_after := 0, temporary := true,
    map_read := fun x => x, map_write := fun x => x,
    recompute := fun l => l.length, codec := idCodec }

/-- A two-field plan: a padded materialized field followed by a temporary
length field. -/
def rtPlan : List RField := [paddedField, tempField]

/-- An assertion-checking field over the ideal codec with no assertions. -/
def aFieldPlain : AField := { codec := idCodec, assertions := [] }

/-- An assertion-checking field whose single assertion requires the decoded
value to be even. -/
def aFieldEven : AField :=
  { codec := idCodec, assertions := [("even", fun v => v % 2 == 0)] }

/-! ## Theorems -/

/-- C6: no operation on a `WriteOptions` value performs mutation visible to
the holder: `endian` merely reads the stored endianness
(`WriteOptions::new(e).endian() == e`), and `with_endian` builds a fresh
record determined by the new endianness alone, so every pre-existing copy —
here the arbitrary copy `o` — retains its original endianness. -/
theorem writeOptions_copy_on_override (o : WriteOptions) (e e1 : Endian) :
    (WriteOptions.new e).endian = e ∧
    (o.with_endian e1).endian = e1 ∧
    o.with_endian e1 = WriteOptions.new e1 ∧
    o.endian = o.endian :=
  ⟨rfl, rfl, rfl, rfl⟩

/-- C6 witness: the copy-on-override behaviour at big-endian options
overridden to little-endian. -/
theorem writeOptions_copy_on_override_witness :
    (WriteOptions.new Endian.Big).endian = Endian.Big ∧
    ((WriteOptions.new Endian.Big).with_endian Endian.Little).endian = Endian.Little ∧
    (WriteOptions.new Endian.Big).with_endian Endian.Little = WriteOptions.new Endian.Little ∧
    (WriteOptions.new Endian.Big).endian = (WriteOptions.new Endian.Big).endian :=
  writeOptions_copy_on_override (WriteOptions.new Endian.Big) Endian.Big Endian.Little

/-- C5: every convenience entry point equals the generic endian-parameterized
entry point at fixed parameters: `write_to` is `write_options` with default
options and default arguments (available only under a default for `Args`,
here the `Inhabited` instance); `write_be`/`write_le`/`write_ne` are
`write_type` at big, little and native order; and `write_type_args` is
`T::write_options` at `WriteOptions::new(endian)`. -/
theorem entry_points_refine {T Args : Type} (bw : BinWrite T Args) [Inhabited Args]
    (v : T) (w : Writer) (endian : Endian) (args : Args) :
    bw.write_to v w = bw.write_options v w WriteOptions.dfl default ∧
    write_be bw w v = write_type bw w v Endian.Big ∧
    write_le bw w v = write_type bw w v Endian.Little ∧
    write_ne bw w v = write_type bw w v Endian.Native ∧
    write_type_args bw w v endian args = bw.write_options v w (WriteOptions.new endian) args := by
  refine ⟨rfl, rfl, rfl, rfl, ?_⟩
  unfold write_type_args
  cases h : bw.write_options v w (WriteOptions.new endian) args <;>
    simp [h, Except.bind]

/-- C5 witness: the refinement equalities at the `u16` leaf writer on an
empty stream. -/
theorem entry_points_refine_witness :
    u16BinWrite.write_to 5 { data := [] } =
      u16BinWrite.write_options 5 { data := [] } WriteOptions.dfl default ∧
    write_be u16BinWrite { data := [] } 5 = write_type u16BinWrite { data := [] } 5 Endian.Big ∧
    write_le u16BinWrite { data := [] } 5 = write_type u16BinWrite { data := [] } 5 Endian.Little ∧
    write_ne u16BinWrite { data := [] } 5 = write_type u16BinWrite { data := [] } 5 Endian.Native ∧
    write_type_args u16BinWrite { data := [] } 5 Endian.Big () =
      u16BinWrite.write_options 5 { data := [] } (WriteOptions.new Endian.Big) () :=
  entry_points_refine u16BinWrite 5 { data := [] } Endian.Big ()

/-- C2: writing `MyStruct(1, 0xffff, 2)` big-endian into an empty stream and
then `0x1234u16` little-endian into the same stream produces exactly
`[0x01, 0xff, 0xff, 0x02, 0x34, 0x12]`; reading that byte sequence back —
the 3-field value big-endian, then one `u16` little-endian — reproduces the
two original values exactly. -/
theorem concrete_scenario :
    scenarioWrite = Except.ok { data := [0x01, 0xff, 0xff, 0x02, 0x34, 0x12] } ∧
    myStructRead Endian.Big [0x01, 0xff, 0xff, 0x02, 0x34, 0x12] =
      some ((1, 0xffff, 2), [0x34, 0x12]) ∧
    u16Read Endian.Little [0x34, 0x12] = some (0x1234, []) :=
  ⟨rfl, by decide, by decide⟩

/-- C3: every union-shaped definition is rejected by the schema parser with
`UnsupportedShape` at schema-compile time: the parse fails, so no
implementation is produced, under both the bare derive entry point
(`derive_from_input`) and the full attribute-macro entry point
(`derive_from_attribute`). -/
theorem union_rejected (d : DeriveInput) (ufs : List Field)
    (h : d.data = Data.dunion ufs) :
    from_input d = Except.error SchemaErr.UnsupportedShape ∧
    (derive_from_input from_input d).1 = Except.error SchemaErr.UnsupportedShape ∧
    (derive_from_input from_input d).2 =
      Generated.compileError SchemaErr.UnsupportedShape ∧
    (derive_from_attribute from_input d).2 =
      Generated.compileError SchemaErr.UnsupportedShape := by
  have hf : from_input d = Except.error SchemaErr.UnsupportedShape := by
    unfold from_input
    rw [h]
  refine ⟨hf, hf, ?_, ?_⟩
  · simp [derive_from_input, hf, generate_binread_impl]
  · simp [derive_from_attribute, hf, generate_binread_impl]

/-- C3 witness: both union forms of tests/ui/unsupported_type_union.rs are
rejected at schema-compile time. -/
theorem union_rejected_witness :
    (from_input unionFoo = Except.error SchemaErr.UnsupportedShape ∧
      (derive_from_input from_input unionFoo).1 = Except.error SchemaErr.UnsupportedShape ∧
      (derive_from_input from_input unionFoo).2 =
        Generated.compileError SchemaErr.UnsupportedShape ∧
      (derive_from_attribute from_input unionFoo).2 =
        Generated.compileError SchemaErr.UnsupportedShape) ∧
    (derive_from_attribute from_input unionBar).2 =
      Generated.compileError SchemaErr.UnsupportedShape :=
  ⟨union_rejected unionFoo [{ ident := 0, attrs := [] }] rfl,
    (union_rejected unionBar
      [{ ident := 1,
         attrs := [{ is_binread := true, is_temp := false, payload := 2 },
                   { is_binread := false, is_temp := false, payload := 3 }] }] rfl).2.2.2⟩

/-- Filtering-by-rejection as filter-then-map: a `filterMap` that drops the
elements satisfying `p` and transforms the rest. -/
theorem filterMap_if_not {α β : Type} (p : α → Bool) (g : α → β) (l : List α) :
    l.filterMap (fun x => if p x then none else some (g x)) =
      (l.filter (fun x => !p x)).map g := by
  induction l with
  | nil => rfl
  | cons a l ih =>
    cases h : p a <;> simp [List.filterMap_cons, List.filter_cons, h, ih]

/-- Mapping a function of the payload over an enumeration forgets the
indices. -/
theorem enum_map_payload {α β : Type} (g : α → β) (l : List α) :
    l.enum.map (fun p => g p.2) = l.map g := by
  have h := congrArg (List.map g) (List.enum_map_snd l)
  rw [List.map_map] at h
  exact h

/-- C10: `derive_from_attribute` always cleans the struct-level framework
attributes; when the parse fails, struct and enum field lists are re-emitted
untouched (no attribute cleaned, no field stripped); when the parse succeeds,
a struct's named fields are exactly the non-temporary ones with their
attributes cleaned; and a union's fields always get per-field attribute
cleaning and are never removed, whatever the parse result. -/
theorem derive_from_attribute_shape
    (fi : DeriveInput → Except SchemaErr Input) (d : DeriveInput) :
    ((derive_from_attribute fi d).1.attrs = clean_struct_attrs d.attrs) ∧
    (∀ e fields, fi d = Except.error e → d.data = Data.dstruct fields →
      (derive_from_attribute fi d).1.data = Data.dstruct fields) ∧
    (∀ e vs, fi d = Except.error e → d.data = Data.denum vs →
      (derive_from_attribute fi d).1.data =
        Data.denum (vs.map (fun v =>
          { attrs := clean_struct_attrs v.attrs, fields := v.fields }))) ∧
    (∀ bi fs, fi d = Except.ok bi → d.data = Data.dstruct (Fields.named fs) →
      (derive_from_attribute fi d).1.data =
        Data.dstruct (Fields.named
          ((fs.enum.filter (fun p => !bi.is_temp_field 0 p.1)).map
            (fun p => { ident := p.2.ident, attrs := clean_struct_attrs p.2.attrs })))) ∧
    (∀ ufs, d.data = Data.dunion ufs →
      (derive_from_attribute fi d).1.data =
        Data.dunion (ufs.map (fun f =>
          { ident := f.ident, attrs := clean_struct_attrs f.attrs }))) := by
  refine ⟨rfl, ?_, ?_, ?_, ?_⟩
  · intro e fields he hd
    simp only [derive_from_attribute, he, hd]
    rfl
  · intro e vs he hd
    simp only [derive_from_attribute, he, hd, Except.toOption, clean_field_attrs]
    exact congrArg Data.denum
      (enum_map_payload
        (fun v => ({ attrs := clean_struct_attrs v.attrs, fields := v.fields } : Variant)) vs)
  · intro bi fs hok hd
    simp only [derive_from_attribute, hok, hd, Except.toOption, clean_field_attrs,
      clean_field_list]
    exact congrArg (fun l => Data.dstruct (Fields.named l))
      (filterMap_if_not (fun p => bi.is_temp_field 0 p.1)
        (fun p => ({ ident := p.2.ident, attrs := clean_struct_attrs p.2.attrs } : Field))
        fs.enum)
  · intro ufs hd
    simp [derive_from_attribute, hd]

/-- C10 witness: the conclusions at the decorated union `unionBar` under the
spec-modelled parser (parse fails with `UnsupportedShape`, yet the union's
field keeps its identity and loses exactly its framework attribute) and at a
struct whose parse fails. -/
theorem derive_from_attribute_shape_witness :
    (derive_from_attribute from_input unionBar).1.attrs = clean_struct_attrs unionBar.attrs ∧
    (derive_from_attribute from_input unionBar).1.data =
      Data.dunion [{ ident := 1, attrs := [{ is_binread := false, is_temp := false, payload := 3 }] }] := by
  refine ⟨(derive_from_attribute_shape from_input unionBar).1, ?_⟩
  have h := (derive_from_attribute_shape from_input unionBar).2.2.2.2
    [{ ident := 1,
       attrs := [{ is_binread := true, is_temp := false, payload := 2 },
                 { is_binread := false, is_temp := false, payload := 3 }] }] rfl
  rw [h]
  decide

/-- Skipping over freshly written pad filler lands exactly past it. -/
theorem skipPad_replicate (n c : Nat) (l : List Nat) :
    skipPad n (List.replicate n c ++ l) = some l := by
  induction n with
  | zero => rfl
  | succ n ih => simpa [List.replicate_succ, skipPad] using ih

/-- The read procedure undoes the write procedure field by field: whatever
byte sequence a (partial) write of the plan produced, reading it back
materializes exactly the values the write consumed, and leaves the trailing
bytes untouched — provided every leaf codec round-trips and no map transform
is lossy. -/
theorem writeFields_readFields (fs : List RField) (e : Endian) (vf : List Nat)
    (hL : leafRT fs) (hM : mapRT fs) :
    ∀ vals bs rem, writeFields fs e vf vals = some (bs, rem) →
    ∀ rest, ∃ consumed, vals = consumed ++ rem ∧
      readFields fs e (bs ++ rest) = some (consumed, rest) := by
  induction fs with
  | nil =>
    intro vals bs rem h rest
    simp only [writeFields, Option.some.injEq, Prod.mk.injEq] at h
    obtain ⟨hbs, hrem⟩ := h
    exact ⟨[], by simp [hrem], by simp [← hbs, readFields]⟩
  | cons f fs ih =>
    have hL' : leafRT fs := fun g hg => hL g (List.mem_cons_of_mem f hg)
    have hM' : mapRT fs := fun g hg => hM g (List.mem_cons_of_mem f hg)
    have hLf := hL f (List.mem_cons_self f fs)
    have hMf := hM f (List.mem_cons_self f fs)
    intro vals bs rem h rest
    cases ht : f.temporary with
    | true =>
      simp only [writeFields, ht, if_true, Option.map_eq_some', Prod.mk.injEq] at h
      obtain ⟨p, hp, hbs, hrem⟩ := h
      subst hbs
      subst hrem
      obtain ⟨consumed, hvals, hread⟩ := ih hL' hM' vals p.1 p.2 (by rw [hp]) rest
      refine ⟨consumed, hvals, ?_⟩
      simp only [readFields, writeChunk, List.append_assoc, skipPad_replicate,
        Option.some_bind, hLf, hread, Option.map_some', ht, if_true]
    | false =>
      cases vals with
      | nil => simp [writeFields, ht] at h
      | cons v vals2 =>
        simp only [writeFields, ht, Bool.false_eq_true, if_false, Option.map_eq_some',
          Prod.mk.injEq] at h
        obtain ⟨p, hp, hbs, hrem⟩ := h
        subst hbs
        subst hrem
        obtain ⟨consumed, hvals, hread⟩ := ih hL' hM' vals2 p.1 p.2 (by rw [hp]) rest
        refine ⟨v :: consumed, by rw [List.cons_append, ← hvals], ?_⟩
        simp only [readFields, writeChunk, List.append_assoc, skipPad_replicate,
          Option.some_bind, hLf, hread, Option.map_some', ht, Bool.false_eq_true,
          if_false, hMf]

/-- C1: the round-trip law — for every plan, every value of the generated
type and every byte-order setting, reading back the byte sequence produced by
writing the value yields the value again, under the hypotheses that every
leaf codec in the plan is round-trip-correct and no map transform in the plan
is lossy. -/
theorem round_trip (fs : List RField) (e : Endian) (v bs : List Nat)
    (hL : leafRT fs) (hM : mapRT fs) (h : writePlan fs e v = some bs) :
    readFields fs e bs = some (v, []) := by
  unfold writePlan at h
  cases hw : writeFields fs e v v with
  | none => rw [hw] at h; exact absurd h (by simp)
  | some p =>
    rw [hw] at h
    obtain ⟨bs2, rem⟩ := p
    cases rem with
    | cons a l => exact absurd h (by simp)
    | nil =>
      simp only [Option.some.injEq] at h
      obtain ⟨consumed, hv, hread⟩ :=
        writeFields_readFields fs e v hL hM v bs2 [] hw []
      rw [List.append_nil] at hv hread
      rw [← h, hread, hv]

/-- C1 witness: the round trip at a concrete two-field plan (a padded
materialized field and a temporary length field over the ideal codec) with
the value `[5]`, whose write produces `[0, 5, 1]`. -/
theorem round_trip_witness :
    readFields rtPlan Endian.Little [0, 5, 1] = some ([5], []) := by
  refine round_trip rtPlan Endian.Little [5] [0, 5, 1] ?_ ?_ (by decide)
  · intro f hf e v rest
    have hf2 : f = paddedField ∨ f = tempField := by simpa [rtPlan] using hf
    rcases hf2 with rfl | rfl <;> rfl
  · intro f hf x
    have hf2 : f = paddedField ∨ f = tempField := by simpa [rtPlan] using hf
    rcases hf2 with rfl | rfl <;> rfl

/-- Reading a concatenated plan is reading the first part, then the second
part on the remaining stream, concatenating the materialized values. -/
theorem readFields_append (xs ys : List RField) (e : Endian) (bs : List Nat) :
    readFields (xs ++ ys) e bs =
      (readFields xs e bs).bind (fun p =>
        (readFields ys e p.2).map (fun q => (p.1 ++ q.1, q.2))) := by
  induction xs generalizing bs with
  | nil =>
    cases h : readFields ys e bs <;> simp [readFields, h]
  | cons f xs ih =>
    simp only [List.cons_append, readFields]
    cases h1 : skipPad f.pad_before bs with
    | none => simp
    | some bs1 =>
      cases h2 : f.codec.dec (f.effEndian e) bs1 with
      | none => simp [h2]
      | some pr =>
        cases h3 : skipPad f.pad_after pr.2 with
        | none => simp [h2, h3]
        | some bs3 =>
          cases h4 : readFields xs e bs3 with
          | none => simp [h2, h3, ih, h4]
          | some p =>
            cases h5 : readFields ys e p.2 with
            | none => simp [h2, h3, ih, h4, h5]
            | some q =>
              cases htemp : f.temporary <;> simp [h2, h3, ih, h4, h5, htemp]

/-- Writing a concatenated plan is writing the first part, then the second
part on the values the first part did not consume, concatenating the bytes. -/
theorem writeFields_append (xs ys : List RField) (e : Endian) (vf : List Nat)
    (vals : List Nat) :
    writeFields (xs ++ ys) e vf vals =
      (writeFields xs e vf vals).bind (fun p =>
        (writeFields ys e vf p.2).map (fun q => (p.1 ++ q.1, q.2))) := by
  induction xs generalizing vals with
  | nil =>
    cases h : writeFields ys e vf vals <;> simp [writeFields, h]
  | cons f xs ih =>
    simp only [List.cons_append, writeFields]
    cases htemp : f.temporary with
    | true =>
      simp only [if_true]
      cases h4 : writeFields xs e vf vals with
      | none => simp [ih, h4]
      | some p =>
        cases h5 : writeFields ys e vf p.2 with
        | none => simp [ih, h4, h5]
        | some q => simp [ih, h4, h5, List.append_assoc]
    | false =>
      simp only [Bool.false_eq_true, if_false]
      cases vals with
      | nil => simp
      | cons v vals2 =>
        cases h4 : writeFields xs e vf vals2 with
        | none => simp [ih, h4]
        | some p =>
          cases h5 : writeFields ys e vf p.2 with
          | none => simp [ih, h4, h5]
          | some q => simp [ih, h4, h5, List.append_assoc]

/-- Positions with equal idents coincide in a field list whose idents are
distinct. -/
theorem ident_index_inj (fs : List Field) (hnodup : (fs.map Field.ident).Nodup)
    (i j : Nat) (a b : Field) (ha : fs[i]? = some a) (hb : fs[j]? = some b)
    (hid : a.ident = b.ident) : i = j := by
  have hlen : i < fs.length := by
    rcases List.getElem?_eq_some.1 ha with ⟨h, _⟩
    exact h
  have hmi : (fs.map Field.ident)[i]? = some a.ident := by
    rw [List.getElem?_map, ha]
    rfl
  have hmj : (fs.map Field.ident)[j]? = some b.ident := by
    rw [List.getElem?_map, hb]
    rfl
  refine List.getElem?_inj (by simpa using hlen) hnodup ?_
  rw [hmi, hmj, hid]

/-- C4: temporary-field elision. A field classified temporary is absent from
the externally materialized value shape the generator emits (no kept field
shares its identity), while the byte-stream plan still decodes it at its
declared position — between the fields before it and the fields after it —
contributing nothing to the materialized value list: it is removed from the
structure, never from the stream sequence. -/
theorem temporary_field_elision
    (bi : Input) (fs : List Field) (i : Nat) (fi0 : Field)
    (pre post : List RField) (f : RField) (e : Endian) (bs vals rest : List Nat)
    (hget : fs[i]? = some fi0)
    (htempcls : bi.is_temp_field 0 i = true)
    (hnodup : (fs.map Field.ident).Nodup)
    (hpos : pre.length = i)
    (hftemp : f.temporary = true)
    (hread : readFields (pre ++ f :: post) e bs = some (vals, rest)) :
    (∀ g ∈ clean_field_list bi 0 fs, g.ident ≠ fi0.ident) ∧
    (∃ p bsA raw bsB bsC q,
      readFields pre e bs = some p ∧
      skipPad f.pad_before p.2 = some bsA ∧
      f.codec.dec (f.effEndian e) bsA = some (raw, bsB) ∧
      skipPad f.pad_after bsB = some bsC ∧
      readFields post e bsC = some q ∧
      vals = p.1 ++ q.1 ∧ rest = q.2) := by
  constructor
  · intro g hg
    rw [clean_field_list, filterMap_if_not] at hg
    rcases List.mem_map.1 hg with ⟨p, hpmem, rfl⟩
    rcases (List.mem_filter).1 hpmem with ⟨henum, hkeep⟩
    have hp : fs[p.1]? = some p.2 := List.mem_enum_iff_getElem?.1 henum
    intro hid
    have : p.1 = i := ident_index_inj fs hnodup p.1 i p.2 fi0 hp hget hid
    rw [this, htempcls] at hkeep
    simp at hkeep
  · rw [readFields_append] at hread
    cases hp : readFields pre e bs with
    | none => rw [hp] at hread; simp at hread
    | some p =>
      rw [hp, Option.some_bind, Option.map_eq_some'] at hread
      obtain ⟨r, hr, hre⟩ := hread
      simp only [readFields] at hr
      cases hA : skipPad f.pad_before p.2 with
      | none => rw [hA] at hr; simp at hr
      | some bsA =>
        rw [hA, Option.some_bind] at hr
        cases hD : f.codec.dec (f.effEndian e) bsA with
        | none => rw [hD] at hr; simp at hr
        | some pr =>
          rw [hD, Option.some_bind] at hr
          cases hC : skipPad f.pad_after pr.2 with
          | none => rw [hC] at hr; simp at hr
          | some bsC =>
            rw [hC, Option.some_bind, Option.map_eq_some'] at hr
            obtain ⟨q, hq, hqe⟩ := hr
            subst hqe
            simp only [hftemp, if_true, Prod.mk.injEq] at hre
            exact ⟨p, bsA, pr.1, pr.2, bsC, q, rfl, hA, hD, hC, hq,
              hre.1.symm, hre.2.symm⟩

/-- C4 witness: the elision at a concrete three-field struct whose middle
field is temporary, with the matching three-field plan on the stream
`[5, 3, 9]`. -/
theorem temporary_field_elision_witness :
    (∀ g ∈ clean_field_list { temp_fields := [(0, 1)] } 0
        [{ ident := 10, attrs := [] },
         { ident := 11, attrs := [{ is_binread := true, is_temp := true, payload := 0 }] },
         { ident := 12, attrs := [] }],
      g.ident ≠ 11) ∧
    (∃ p bsA raw bsB bsC q,
      readFields [plainField] Endian.Little [5, 3, 9] = some p ∧
      skipPad tempField.pad_before p.2 = some bsA ∧
      tempField.codec.dec (tempField.effEndian Endian.Little) bsA = some (raw, bsB) ∧
      skipPad tempField.pad_after bsB = some bsC ∧
      readFields [plainField] Endian.Little bsC = some q ∧
      [5, 9] = p.1 ++ q.1 ∧ [] = q.2) :=
  temporary_field_elision { temp_fields := [(0, 1)] }
    [{ ident := 10, attrs := [] },
     { ident := 11, attrs := [{ is_binread := true, is_temp := true, payload := 0 }] },
     { ident := 12, attrs := [] }]
    1 { ident := 11, attrs := [{ is_binread := true, is_temp := true, payload := 0 }] }
    [plainField] [plainField] tempField Endian.Little [5, 3, 9] [5, 9] []
    (by decide) (by decide) (by decide) rfl rfl (by decide)

/-- The description a failing assertion reports is the description of one of
the field's own assertions. -/
theorem firstFailing_mem (as : List (String × (Nat → Bool))) (v : Nat) (d : String)
    (h : firstFailing as v = some d) : d ∈ as.map Prod.fst := by
  induction as with
  | nil => simp [firstFailing] at h
  | cons a as ih =>
    simp only [firstFailing] at h
    cases ha : a.2 v with
    | true =>
      rw [ha] at h
      simp only [if_true] at h
      exact List.mem_cons_of_mem _ (ih h)
    | false =>
      rw [ha] at h
      simp only [Bool.false_eq_true, if_false, Option.some.injEq] at h
      rw [← h]
      exact List.mem_cons_self _ _

/-- An `AssertionFailed k` outcome of the assertion-checking reader started at
index `idx` means: `k` lies in the suffix, the processed trace is exactly the
indices from `idx` through `k`, and the description belongs to field `k`'s
assertion list. -/
theorem readA_assertion_aux (fs : List AField) (e : Endian) :
    ∀ idx bs k desc,
    (readA idx fs e bs).2 = Except.error (RErr.AssertionFailed k desc) →
    idx ≤ k ∧ (readA idx fs e bs).1 = List.range' idx (k + 1 - idx) ∧
    ∃ f, fs[k - idx]? = some f ∧ desc ∈ f.assertions.map Prod.fst := by
  induction fs with
  | nil =>
    intro idx bs k desc h
    simp [readA] at h
  | cons f fs ih =>
    intro idx bs k desc h
    cases hD : f.codec.dec e bs with
    | none =>
      simp only [readA, hD] at h
      simp at h
    | some pr =>
      obtain ⟨v, rest⟩ := pr
      cases hFF : firstFailing f.assertions v with
      | some d0 =>
        simp only [readA, hD, hFF] at h
        simp only [Except.error.injEq, RErr.AssertionFailed.injEq] at h
        obtain ⟨hk, hd⟩ := h
        subst hk
        refine ⟨Nat.le_refl idx, ?_, f, ?_, ?_⟩
        · simp only [readA, hD, hFF]
          have h1 : idx + 1 - idx = 1 := by omega
          rw [h1]
          rfl
        · simp
        · rw [← hd]
          exact firstFailing_mem f.assertions v d0 hFF
      | none =>
        simp only [readA, hD, hFF] at h
        cases hrec : (readA (idx + 1) fs e rest).2 with
        | ok p =>
          obtain ⟨vals, rem⟩ := p
          rw [hrec] at h
          simp at h
        | error err =>
          rw [hrec] at h
          simp only [Except.error.injEq] at h
          subst h
          obtain ⟨hle, htr, f2, hf2, hdesc⟩ := ih (idx + 1) rest k desc hrec
          refine ⟨by omega, ?_, f2, ?_, hdesc⟩
          · simp only [readA, hD, hFF, htr]
            have h1 : k + 1 - idx = (k + 1 - (idx + 1)) + 1 := by omega
            rw [h1, List.range'_succ]
          · have h2 : k - idx = (k - (idx + 1)) + 1 := by omega
            rw [h2]
            simpa using hf2

/-- C8: assertion short-circuit — whenever a read of the plan fails with
`AssertionFailed` at field `k`, the fields processed are exactly `0` through
`k` in order (no field after `k` is processed), and the failure identifies
field `k`: the reported description is one of field `k`'s own assertion
descriptions. The result being an error, no value is produced. -/
theorem assertion_short_circuit (fs : List AField) (e : Endian) (bs : List Nat)
    (k : Nat) (desc : String)
    (h : (readA 0 fs e bs).2 = Except.error (RErr.AssertionFailed k desc)) :
    (readA 0 fs e bs).1 = List.range (k + 1) ∧
    ∃ f, fs[k]? = some f ∧ desc ∈ f.assertions.map Prod.fst := by
  obtain ⟨-, htr, f, hf, hd⟩ := readA_assertion_aux fs e 0 bs k desc h
  rw [List.range_eq_range']
  constructor
  · simpa using htr
  · exact ⟨f, by simpa using hf, hd⟩

/-- C8 witness: a three-field plan whose middle field carries an evenness
assertion, on a stream whose middle byte is odd: the read aborts at field 1,
the trace is `[0, 1]`, and the failure carries field 1's description. -/
theorem assertion_short_circuit_witness :
    (readA 0 [aFieldPlain, aFieldEven, aFieldPlain] Endian.Big [2, 3, 7]).1 =
      List.range 2 ∧
    ∃ f, [aFieldPlain, aFieldEven, aFieldPlain][1]? = some f ∧
      "even" ∈ f.assertions.map Prod.fst :=
  assertion_short_circuit [aFieldPlain, aFieldEven, aFieldPlain] Endian.Big
    [2, 3, 7] 1 "even" rfl

/-- Trial-matching from any starting index selects the first variant in list
order whose whole plan parses: some earlier-or-equal index is accepted, and
every variant strictly before the accepted one fails. -/
theorem tryVariantsFrom_first_success (e : Endian) (bs : List Nat) :
    ∀ (vs : List (List AField)) (idx : Nat) (errs : List RErr) (i : Nat)
      (vi : List AField) (ri : List Nat × List Nat),
    vs[i]? = some vi → runVariant vi e bs = Except.ok ri →
    ∃ k vk rk, k ≤ i ∧ vs[k]? = some vk ∧ runVariant vk e bs = Except.ok rk ∧
      tryVariantsFrom idx vs e bs errs = Except.ok (idx + k, rk) ∧
      ∀ m vm, m < k → vs[m]? = some vm →
        ∃ err, runVariant vm e bs = Except.error err := by
  intro vs
  induction vs with
  | nil =>
    intro idx errs i vi ri hi
    simp at hi
  | cons v vs ih =>
    intro idx errs i vi ri hi hok
    cases hv : runVariant v e bs with
    | ok r =>
      refine ⟨0, v, r, Nat.zero_le i, by simp, hv, ?_, ?_⟩
      · simp only [tryVariantsFrom, hv, Nat.add_zero]
      · intro m vm hm hvm
        exact absurd hm (Nat.not_lt_zero m)
    | error err =>
      cases i with
      | zero =>
        simp only [List.getElem?_cons_zero, Option.some.injEq] at hi
        rw [← hi, hv] at hok
        simp at hok
      | succ i2 =>
        obtain ⟨k, vk, rk, hk, hvk, hrk, heq, hfail⟩ :=
          ih (idx + 1) (err :: errs) i2 vi ri (by simpa using hi) hok
        refine ⟨k + 1, vk, rk, by omega, by simpa using hvk, hrk, ?_, ?_⟩
        · simp only [tryVariantsFrom, hv]
          rw [heq]
          have harith : idx + 1 + k = idx + (k + 1) := by omega
          rw [harith]
        · intro m vm hm hvm
          cases m with
          | zero =>
            simp only [List.getElem?_cons_zero, Option.some.injEq] at hvm
            exact ⟨err, by rw [← hvm]; exact hv⟩
          | succ m2 =>
            exact hfail m2 vm (by omega) (by simpa using hvm)

/-- C7: deterministic trial-match ordering — when at least two variants can
parse the same input (indices `i < j`), the variant the dispatcher selects is
the first one in declaration order: its index is at most `i`, every variant
strictly before it fails, and the selection is a function of the plan list
and the input alone. -/
theorem trial_match_declaration_order (vs : List (List AField)) (e : Endian)
    (bs : List Nat) (i j : Nat) (vi vj : List AField)
    (ri rj : List Nat × List Nat)
    (hij : i < j)
    (hi : vs[i]? = some vi) (hoki : runVariant vi e bs = Except.ok ri)
    (hj : vs[j]? = some vj) (hokj : runVariant vj e bs = Except.ok rj) :
    ∃ k vk rk, k ≤ i ∧ vs[k]? = some vk ∧ runVariant vk e bs = Except.ok rk ∧
      tryVariants vs e bs = Except.ok (k, rk) ∧
      ∀ m vm, m < k → vs[m]? = some vm →
        ∃ err, runVariant vm e bs = Except.error err := by
  obtain ⟨k, vk, rk, hk, hvk, hrk, heq, hfail⟩ :=
    tryVariantsFrom_first_success e bs vs 0 [] i vi ri hi hoki
  exact ⟨k, vk, rk, hk, hvk, hrk, by simpa using heq, hfail⟩

/-- C7 witness: two variants that both parse the stream `[5]`; the dispatcher
selects the one declared first. -/
theorem trial_match_declaration_order_witness :
    ∃ k vk rk, k ≤ 0 ∧ [[aFieldPlain], [aFieldPlain]][k]? = some vk ∧
      runVariant vk Endian.Big [5] = Except.ok rk ∧
      tryVariants [[aFieldPlain], [aFieldPlain]] Endian.Big [5] = Except.ok (k, rk) ∧
      ∀ m vm, m < k → [[aFieldPlain], [aFieldPlain]][m]? = some vm →
        ∃ err, runVariant vm Endian.Big [5] = Except.error err :=
  trial_match_declaration_order [[aFieldPlain], [aFieldPlain]] Endian.Big [5]
    0 1 [aFieldPlain] [aFieldPlain] ([5], []) ([5], []) (by omega) rfl rfl rfl rfl

/-- C9: restore_position is fail-safe — for a field carrying
`restore_position`, the offset recorded before the field's leaf decode (after
its `pad_before`, per the spec's step order) is restored before the field
completes, on the success path and on every failure path alike, and the
underlying data is untouched; so subsequent fields, or the caller after an
error, observe exactly the saved offset. -/
theorem restore_position_restores (f : PField) (dec : List Nat → Option Nat)
    (s : PosStream) (h : f.restore_position = true) :
    (readPField f dec s).2.pos = s.pos + f.pad_before ∧
    (readPField f dec s).2.data = s.data := by
  simp only [readPField, h, if_true]
  split
  · exact ⟨rfl, rfl⟩
  · split
    · exact ⟨rfl, rfl⟩
    · exact ⟨rfl, rfl⟩

/-- C9 witness: a restoring field on the stream `[9, 9, 9]`, once with a
succeeding decoder and once with a failing one; both paths land back on the
saved offset. -/
theorem restore_position_restores_witness :
    (readPField { pad_before := 1, pad_after := 2, restore_position := true, size := 1 }
        (fun _ => some 1) { data := [9, 9, 9], pos := 0 }).2.pos = 0 + 1 ∧
    (readPField { pad_before := 1, pad_after := 2, restore_position := true, size := 1 }
        (fun _ => none) { data := [9, 9, 9], pos := 0 }).2.pos = 0 + 1 :=
  ⟨(restore_position_restores
      { pad_before := 1, pad_after := 2, restore_position := true, size := 1 }
      (fun _ => some 1) { data := [9, 9, 9], pos := 0 } rfl).1,
    (restore_position_restores
      { pad_before := 1, pad_after := 2, restore_position := true, size := 1 }
      (fun _ => none) { data := [9, 9, 9], pos := 0 } rfl).1⟩

end Binrw
